import Mathlib

set_option maxRecDepth 1000000

/-!
Verification of the YahtzeeCalc core (scoring engine, roll-frequency store,
reroll advisor) against its specification.  The Python source `main.py` is
shallowly embedded: hands are lists of natural numbers, the frequency table
(a `Counter` keyed by sorted hands) is an association list in insertion
order, Python floats are modelled by rationals, and the exception raised by
`max()` on an empty sequence is modelled by an `Except` error.
-/

/-- A hand: the list of the 5 die faces, in the order the player holds them. -/
abbrev Hand := List ℕ

/-- The roll-frequency table: a `Counter` keyed by canonical (sorted) hands,
kept as an association list in insertion order with positive counts. -/
abbrev Table := List (List ℕ × ℕ)

/-- Python `tuple(sorted(dice))`: the canonical ascending form of a hand. -/
def sortHand (d : Hand) : Hand := d.insertionSort (· ≤ ·)

/-- The multiset of values of `Counter(dice)`: for each distinct face, how
often it occurs in the hand (Python `Counter(dice).values()`). -/
def counter_values (d : Hand) : List ℕ := d.dedup.map (fun f => d.count f)

/-- The upper-section categories: sum of the dice showing face `n`. -/
def score_upper (n : ℕ) (d : Hand) : ℕ := (d.filter (fun x => x = n)).sum

/-- `three_of_a_kind` / `four_of_a_kind`: whole-hand sum if some face occurs
at least `n` times, else 0. -/
def score_n_of_a_kind (n : ℕ) (d : Hand) : ℕ :=
  if (counter_values d).any (fun v => n ≤ v) then d.sum else 0

/-- `full_house`: 25 if the sorted list of face multiplicities is `[2, 3]`. -/
def score_full_house (d : Hand) : ℕ :=
  if (counter_values d).insertionSort (· ≤ ·) = [2, 3] then 25 else 0

/-- `small_straight`: 30 if the set of faces meets one of `{1,2,3,4}`,
`{2,3,4,5}`, `{3,4,5,6}` in 4 elements. -/
def score_small_straight (d : Hand) : ℕ :=
  if (d.dedup.filter (fun x => x ∈ ([1, 2, 3, 4] : List ℕ))).length = 4 ∨
     (d.dedup.filter (fun x => x ∈ ([2, 3, 4, 5] : List ℕ))).length = 4 ∨
     (d.dedup.filter (fun x => x ∈ ([3, 4, 5, 6] : List ℕ))).length = 4 then 30 else 0

/-- Equality of the set of faces of `d` with the set of elements of `l`
(Python `set(dice) == {...}`). -/
def faceSetEq (d : Hand) (l : List ℕ) : Prop := (∀ x ∈ d, x ∈ l) ∧ ∀ x ∈ l, x ∈ d

instance (d : Hand) (l : List ℕ) : Decidable (faceSetEq d l) := by
  unfold faceSetEq; infer_instance

/-- `large_straight`: 40 if the face set is exactly `{1,2,3,4,5}` or
`{2,3,4,5,6}`. -/
def score_large_straight (d : Hand) : ℕ :=
  if faceSetEq d [1, 2, 3, 4, 5] ∨ faceSetEq d [2, 3, 4, 5, 6] then 40 else 0

/-- `yahtzee`: 50 if all five dice show the same face
(Python `len(set(dice)) == 1`). -/
def score_yahtzee (d : Hand) : ℕ := if d.dedup.length = 1 then 50 else 0

/-- The `CATEGORIES` dictionary: the 13 scoring categories, in insertion
order, each paired with its scoring function. -/
def CATEGORIES : List (String × (Hand → ℕ)) :=
  [("ones", score_upper 1),
   ("twos", score_upper 2),
   ("threes", score_upper 3),
   ("fours", score_upper 4),
   ("fives", score_upper 5),
   ("sixes", score_upper 6),
   ("three_of_a_kind", score_n_of_a_kind 3),
   ("four_of_a_kind", score_n_of_a_kind 4),
   ("full_house", score_full_house),
   ("small_straight", score_small_straight),
   ("large_straight", score_large_straight),
   ("yahtzee", score_yahtzee),
   ("chance", fun d => d.sum)]

/-- The 13 category identifiers, in `CATEGORIES` order. -/
def CATEGORY_NAMES : List String := CATEGORIES.map Prod.fst

/-- `calculate_scores(dice, played_categories)`: one `(category, score)`
entry per category not in `played`, in `CATEGORIES` order. -/
def calculate_scores (d : Hand) (played : List String) : List (String × ℕ) :=
  (CATEGORIES.filter (fun p => decide (p.1 ∉ played))).map (fun p => (p.1, p.2 d))

/-- The single error kind of the core: no scoring category is left (realised
in Python as the `ValueError` that `max()` raises on an empty sequence of
scores, which happens exactly when `calculate_scores` filtered everything). -/
inductive PyError where
  | noCategoryLeft
deriving DecidableEq

/-- Python `max(values)` over a list of numbers: error on an empty sequence,
else the fold of binary `max`. -/
def pymax : List ℚ → Except PyError ℚ
  | [] => .error .noCategoryLeft
  | x :: xs => .ok (xs.foldl max x)

/-- Python `max(d, key=d.get)` over a nonempty association sequence:
iterates, keeping the first entry whose value is strictly largest. -/
def max_by_snd {α β : Type} [LinearOrder β] (x : α × β) (xs : List (α × β)) : α × β :=
  xs.foldl (fun b p => if b.2 < p.2 then p else b) x

/-- `roll_data.get(tuple(sorted(dice)), 1)`: the stored count of the
canonical form of the hand, defaulting to 1 when absent. -/
def weightOf (t : Table) (d : Hand) : ℕ :=
  match t.find? (fun e => decide (e.1 = sortHand d)) with
  | some e => e.2
  | none => 1

/-- `Counter` update `c[k] += v`: bump the count of `k` in place if the key
is present, else append `(k, v)` (a missing `Counter` key reads as 0). -/
def counterAdd {κ : Type} [DecidableEq κ] (c : List (κ × ℕ)) (k : κ) (v : ℕ) :
    List (κ × ℕ) :=
  if c.any (fun p => decide (p.1 = k)) then
    c.map (fun p => if p.1 = k then (p.1, p.2 + v) else p)
  else c ++ [(k, v)]

/-- Dictionary assignment `c[k] = v`: overwrite in place if the key is
present, else append. -/
def counterSet {κ : Type} [DecidableEq κ] (c : List (κ × ℕ)) (k : κ) (v : ℕ) :
    List (κ × ℕ) :=
  if c.any (fun p => decide (p.1 = k)) then
    c.map (fun p => if p.1 = k then (k, v) else p)
  else c ++ [(k, v)]

/-- `number_frequency`: for every face occurring in some stored roll, the
total observed weight of that face, accumulated in first-encounter order. -/
def number_frequency (t : Table) : List (ℕ × ℕ) :=
  t.foldl (fun nf e => e.1.foldl (fun acc num => counterAdd acc num e.2) nf) []

/-- `most_common_numbers`: the keys of the two entries of
`number_frequency` with the largest counts (stable descending sort, as
`Counter.most_common(2)`), or the empty set when the table is empty. -/
def most_common_numbers (t : Table) : List ℕ :=
  match number_frequency t with
  | [] => []
  | nf => ((nf.insertionSort (fun a b => b.2 ≤ a.2)).take 2).map Prod.fst

/-- `itertools.product(range(1, 7), repeat=n)`: every list of `n` faces, in
lexicographic order. -/
def reroll_values : ℕ → List (List ℕ)
  | 0 => [[]]
  | n + 1 => (((List.range 6).map (· + 1)).map (fun v => (reroll_values n).map (v :: ·))).flatten

/-- `itertools.combinations(range(5), i)` generalised: the size-`k`
sublists of `l`, in lexicographic order of positions. -/
def combinations : ℕ → List ℕ → List (List ℕ)
  | 0, _ => [[]]
  | _ + 1, [] => []
  | k + 1, x :: xs => (combinations k xs).map (x :: ·) ++ combinations (k + 1) xs

/-- All reroll position subsets examined by the advisor: sizes 1 up to
`maxR`, each size in combination order. -/
def all_subsets (maxR : ℕ) : List (List ℕ) :=
  (((List.range maxR).map (· + 1)).map (fun i => combinations i (List.range 5))).flatten

/-- Overwrite the dice at positions `idxs` with the faces `vals`
(`simulated_dice[index] = value` on the copied hand). -/
def apply_reroll (d : Hand) (idxs vals : List ℕ) : Hand :=
  (idxs.zip vals).foldl (fun s p => s.set p.1 p.2) d

/-- Run a fallible computation over each list element in order, stopping at
the first error (a Python loop whose body may raise). -/
def collect {α β : Type} (f : α → Except PyError β) : List α → Except PyError (List β)
  | [] => .ok []
  | a :: l => do
    let b ← f a
    let bs ← collect f l
    pure (b :: bs)

/-- The adjusted score of one simulated hand (`main.py` lines 107-119):
best score over the categories not yet played, times the stored weight of
the simulated hand, times the most-common-faces bonus factor. -/
def adjusted_score (t : Table) (mc : List ℕ) (played : List String) (sim : Hand) :
    Except PyError ℚ := do
  let w := weightOf t sim
  let bonus := sim.countP (fun x => decide (x ∈ mc))
  let m ← pymax ((calculate_scores sim played).map (fun p => (p.2 : ℚ)))
  pure (m * (w : ℚ) * (1 + (1 / 10 : ℚ) * (bonus : ℚ)))

/-- The expected value of rerolling the positions `idxs`: the average of the
adjusted scores over all face assignments for those positions. -/
def subset_expected_value (d : Hand) (t : Table) (mc : List ℕ) (played : List String)
    (idxs : List ℕ) : Except PyError ℚ := do
  let scores ← collect (fun vals => adjusted_score t mc played (apply_reroll d idxs vals))
    (reroll_values idxs.length)
  pure (scores.sum / (scores.length : ℚ))

/-- `recommend_rerolls(dice, roll_data, played_categories, max_rerolls)`:
the die values at the best reroll subset's positions paired with that
subset's expected value; with no subsets to try, the empty list paired with
the best current score. -/
def recommend_rerolls (d : Hand) (t : Table) (played : List String) (maxR : ℕ) :
    Except PyError (List ℕ × ℚ) := do
  let mc := most_common_numbers t
  let evs ← collect (fun s => do
    let ev ← subset_expected_value d t mc played s
    pure (s, ev)) (all_subsets maxR)
  match evs with
  | [] => do
    let m ← pymax ((calculate_scores d played).map (fun p => (p.2 : ℚ)))
    pure (([] : List ℕ), m)
  | e :: es =>
    let best := max_by_snd e es
    pure (best.1.map (fun i => d.getD i 0), best.2)

/-- `max(scores, key=scores.get)` paired with its score: the first entry of
the score dictionary attaining the maximum value; Python raises on an empty
dictionary, which happens exactly when every category is excluded. -/
def max_by_value : List (String × ℕ) → Except PyError (String × ℕ)
  | [] => .error .noCategoryLeft
  | x :: xs => .ok (max_by_snd x xs)

/-- The advisor's decision: lock in a category now, or reroll the dice whose
values are given, with the stated expected value. -/
inductive Recommendation where
  | score : String → ℕ → Recommendation
  | reroll : List ℕ → ℚ → Recommendation
deriving DecidableEq

/-- One advisory turn (`main.py` lines 176-201): get the reroll
recommendation, get the best current category, score now when its value is
at least the reroll expected value, else reroll. -/
def recommend (d : Hand) (t : Table) (played : List String) (maxR : ℕ) :
    Except PyError Recommendation := do
  let rr ← recommend_rerolls d t played maxR
  let best ← max_by_value (calculate_scores d played)
  if (best.2 : ℚ) ≥ rr.2 then pure (.score best.1 best.2)
  else pure (.reroll rr.1 rr.2)

/-- `roll_data[tuple(sorted(dice))] += 1` (`main.py` line 171): record one
observation of a finalized hand under its canonical form. -/
def record_observation (t : Table) (d : Hand) : Table := counterAdd t (sortHand d) 1

/-- `save_roll_data`: truncate the store, then insert one record per table
entry in iteration order; the store afterwards holds exactly the table's
entries. -/
def save_roll_data (_db : List (List ℕ × ℕ)) (t : Table) : List (List ℕ × ℕ) := t

/-- `load_roll_data`: fold the stored records into a fresh `Counter` by
dictionary assignment. -/
def load_roll_data (recs : List (List ℕ × ℕ)) : Table :=
  recs.foldl (fun c e => counterSet c e.1 e.2) []

/-- The `Hand` invariant: exactly 5 dice, each face in `[1, 6]`. -/
def validHand (d : Hand) : Prop := d.length = 5 ∧ ∀ x ∈ d, 1 ≤ x ∧ x ≤ 6

instance (d : Hand) : Decidable (validHand d) := by
  unfold validHand; infer_instance

/-- An excluded-category set covering 12 of the 13 categories (all but
`ones`), used to exhibit the dependence of the simulation scoring on the
excluded set. -/
def twelve_played : List String :=
  ["twos", "threes", "fours", "fives", "sixes", "three_of_a_kind", "four_of_a_kind",
   "full_house", "small_straight", "large_straight", "yahtzee", "chance"]

/-!
A state-passing rendering of `recommend_rerolls`, used to express the frame
property: the three mutable Python objects the function receives (the dice
list, the frequency table, the played-category set) are bundled into a
state, every access the source performs on them is an explicit state
operation, and the final state is provably the initial one.
-/

/-- The mutable objects `recommend_rerolls` receives from its caller. -/
structure PyState where
  dice : Hand
  roll_data : Table
  played : List String
deriving DecidableEq

/-- Iterating `roll_data.items()`: reads the table. -/
def st_roll_items (s : PyState) : Table × PyState := (s.roll_data, s)

/-- `dice[:]`: reads the dice list to build a fresh copy. -/
def st_copy_dice (s : PyState) : Hand × PyState := (s.dice, s)

/-- `roll_data.get(k, ...)`: a non-mutating dictionary lookup. -/
def st_table_get (k : List ℕ) (s : PyState) : Option ℕ × PyState :=
  ((s.roll_data.find? (fun e => decide (e.1 = k))).map Prod.snd, s)

/-- `category not in played_categories`: a membership test on the set. -/
def st_played_has (c : String) (s : PyState) : Bool × PyState :=
  (decide (c ∈ s.played), s)

/-- `dice[i]`: reads one die from the caller's list. -/
def st_die_at (i : ℕ) (s : PyState) : ℕ × PyState := (s.dice.getD i 0, s)

/-- A Python `for` loop accumulating a value, with every iteration free to
touch the state. -/
def stFold {σ α β : Type} (f : β → α → σ → β × σ) : List α → β → σ → β × σ
  | [], b, s => (b, s)
  | a :: l, b, s =>
    let r := f b a s
    stFold f l r.1 r.2

/-- A Python `for` loop collecting results, with every iteration free to
touch the state and to raise (stopping the loop). -/
def stCollect {σ α β : Type} (f : α → σ → Except PyError β × σ) :
    List α → σ → Except PyError (List β) × σ
  | [], s => (.ok [], s)
  | a :: l, s =>
    match f a s with
    | (.error e, s2) => (.error e, s2)
    | (.ok b, s2) =>
      match stCollect f l s2 with
      | (.error e, s3) => (.error e, s3)
      | (.ok bs, s3) => (.ok (b :: bs), s3)

/-- `calculate_scores` reading the played-category set through the state. -/
def calculate_scores_st (d : Hand) (s : PyState) : List (String × ℕ) × PyState :=
  stFold (fun acc p st =>
    let r := st_played_has p.1 st
    (if r.1 then acc else acc ++ [(p.1, p.2 d)], r.2)) CATEGORIES [] s

/-- One simulated outcome (`main.py` lines 107-119) with the dice copy, the
table lookup and the category filter performed through the state. -/
def adjusted_score_st (mc : List ℕ) (idxs vals : List ℕ) (s : PyState) :
    Except PyError ℚ × PyState :=
  let rd := st_copy_dice s
  let sim := apply_reroll rd.1 idxs vals
  let rw := st_table_get (sortHand sim) rd.2
  let w := rw.1.getD 1
  let bonus := sim.countP (fun x => decide (x ∈ mc))
  let rc := calculate_scores_st sim rw.2
  match pymax (rc.1.map (fun p => (p.2 : ℚ))) with
  | .error e => (.error e, rc.2)
  | .ok m => (.ok (m * (w : ℚ) * (1 + (1 / 10 : ℚ) * (bonus : ℚ))), rc.2)

/-- The expected value of one reroll subset, state-passing form. -/
def subset_ev_st (mc : List ℕ) (idxs : List ℕ) (s : PyState) :
    Except PyError ℚ × PyState :=
  match stCollect (fun vals st => adjusted_score_st mc idxs vals st)
      (reroll_values idxs.length) s with
  | (.error e, s2) => (.error e, s2)
  | (.ok scores, s2) => (.ok (scores.sum / (scores.length : ℚ)), s2)

/-- `recommend_rerolls`, state-passing form: every access to the caller's
dice, table and played set goes through the state operations above. -/
def recommend_rerolls_st (maxR : ℕ) (s : PyState) :
    Except PyError (List ℕ × ℚ) × PyState :=
  let ri := st_roll_items s
  let mc := most_common_numbers ri.1
  match stCollect (fun sub st =>
      match subset_ev_st mc sub st with
      | (.error e, st2) => (.error e, st2)
      | (.ok ev, st2) => (.ok (sub, ev), st2)) (all_subsets maxR) ri.2 with
  | (.error e, s2) => (.error e, s2)
  | (.ok [], s2) =>
    let rd := st_copy_dice s2
    let rc := calculate_scores_st rd.1 rd.2
    match pymax (rc.1.map (fun p => (p.2 : ℚ))) with
    | .error e => (.error e, rc.2)
    | .ok m => (.ok (([] : List ℕ), m), rc.2)
  | (.ok (e :: es), s2) =>
    let best := max_by_snd e es
    let rv := stFold (fun acc i st =>
      let r := st_die_at i st
      (acc ++ [r.1], r.2)) best.1 [] s2
    (.ok (rv.1, best.2), rv.2)

/-! ### Basic facts about the embedded operations -/

theorem except_ok_bind {α β : Type} (a : α) (f : α → Except PyError β) :
    (Except.ok a >>= f : Except PyError β) = f a := rfl

theorem except_error_bind {α β : Type} (e : PyError) (f : α → Except PyError β) :
    ((Except.error e : Except PyError α) >>= f : Except PyError β) = .error e := rfl

theorem except_pure_eq_ok {α : Type} (a : α) :
    (pure a : Except PyError α) = .ok a := rfl

theorem max_by_snd_cons {α β : Type} [LinearOrder β] (x y : α × β) (ys : List (α × β)) :
    max_by_snd x (y :: ys) = max_by_snd (if x.2 < y.2 then y else x) ys := rfl

theorem max_by_snd_mem {α β : Type} [LinearOrder β] (x : α × β) (xs : List (α × β)) :
    max_by_snd x xs ∈ x :: xs := by
  induction xs generalizing x with
  | nil => simp [max_by_snd]
  | cons y ys ih =>
    rw [max_by_snd_cons]
    by_cases hxy : x.2 < y.2
    · rw [if_pos hxy]
      rcases List.mem_cons.mp (ih y) with h1 | h1
      · rw [h1]; simp
      · simp [h1]
    · rw [if_neg hxy]
      rcases List.mem_cons.mp (ih x) with h1 | h1
      · rw [h1]; simp
      · simp [h1]

theorem max_by_snd_le {α β : Type} [LinearOrder β] (x : α × β) (xs : List (α × β)) :
    ∀ p ∈ x :: xs, p.2 ≤ (max_by_snd x xs).2 := by
  induction xs generalizing x with
  | nil => intro p hp; simp at hp; simp [max_by_snd, hp]
  | cons y ys ih =>
    intro p hp
    rw [max_by_snd_cons]
    by_cases hxy : x.2 < y.2
    · rw [if_pos hxy]
      rcases List.mem_cons.mp hp with h1 | h1
      · rw [h1]; exact le_trans (le_of_lt hxy) (ih y y (List.mem_cons_self _ _))
      · exact ih y p h1
    · rw [if_neg hxy]
      rcases List.mem_cons.mp hp with h1 | h1
      · rw [h1]; exact ih x x (List.mem_cons_self _ _)
      · rcases List.mem_cons.mp h1 with h2 | h2
        · rw [h2]; exact le_trans (le_of_not_lt hxy) (ih x x (List.mem_cons_self _ _))
        · exact ih x p (List.mem_cons_of_mem _ h2)

theorem foldl_max_eq {m : ℕ} :
    ∀ (l : List ℕ) (x : ℕ), m ∈ x :: l → (∀ v ∈ x :: l, v ≤ m) → l.foldl max x = m := by
  intro l
  induction l with
  | nil =>
    intro x hm _
    simp at hm
    simp [hm]
  | cons y ys ih =>
    intro x hm hub
    simp only [List.foldl_cons]
    apply ih (max x y)
    · rcases List.mem_cons.mp hm with h1 | h1
      · have hy : y ≤ m := hub y (by simp)
        have hx : max x y = m := le_antisymm (max_le (h1 ▸ le_refl m) (h1 ▸ hy)) (h1 ▸ le_max_left x y)
        exact hx ▸ List.mem_cons_self _ _
      · rcases List.mem_cons.mp h1 with h2 | h2
        · have hx : x ≤ m := hub x (by simp)
          have hy : max x y = m := le_antisymm (max_le hx (h2 ▸ le_refl m)) (h2 ▸ le_max_right x y)
          exact hy ▸ List.mem_cons_self _ _
        · exact List.mem_cons_of_mem _ h2
    · intro v hv
      rcases List.mem_cons.mp hv with h1 | h1
      · subst h1; exact max_le (hub x (by simp)) (hub y (by simp))
      · exact hub v (by simp [h1])

theorem foldl_max_cast :
    ∀ (l : List ℕ) (x : ℕ),
      (List.map (fun n : ℕ => (n : ℚ)) l).foldl max (x : ℚ) = ((l.foldl max x : ℕ) : ℚ) := by
  intro l
  induction l with
  | nil => intro x; rfl
  | cons y ys ih =>
    intro x
    have h1 : List.map (fun n : ℕ => (n : ℚ)) (y :: ys)
        = (y : ℚ) :: List.map (fun n : ℕ => (n : ℚ)) ys := rfl
    rw [h1, List.foldl_cons, List.foldl_cons]
    have h2 : max (x : ℚ) (y : ℚ) = ((max x y : ℕ) : ℚ) := (Nat.cast_max x y).symm
    rw [h2, ih (max x y)]

theorem pymax_cast_eq {l : List (String × ℕ)} {e : String × ℕ} {es : List (String × ℕ)}
    (hl : l = e :: es) :
    pymax (l.map (fun p => (p.2 : ℚ))) = .ok (((max_by_snd e es).2 : ℚ)) := by
  subst hl
  have h1 : ((e :: es).map (fun p => (p.2 : ℚ)))
      = (e.2 : ℚ) :: List.map (fun n : ℕ => (n : ℚ)) (List.map Prod.snd es) := by
    have h2 : List.map (fun p : String × ℕ => ((p.2 : ℕ) : ℚ)) es
        = List.map (fun n : ℕ => (n : ℚ)) (List.map Prod.snd es) := by
      rw [List.map_map]; rfl
    rw [List.map_cons, h2]
  rw [h1]
  simp only [pymax]
  rw [foldl_max_cast]
  suffices h : (es.map Prod.snd).foldl max e.2 = (max_by_snd e es).2 by rw [h]
  apply foldl_max_eq
  · have hmem := List.mem_map_of_mem Prod.snd (max_by_snd_mem e es)
    simpa using hmem
  · intro v hv
    rcases List.mem_cons.mp hv with h1 | h1
    · rw [h1]; exact max_by_snd_le e es e (List.mem_cons_self _ _)
    · rcases List.mem_map.mp h1 with ⟨p, hp, hpv⟩
      rw [← hpv]; exact max_by_snd_le e es p (List.mem_cons_of_mem _ hp)

theorem collect_forall2 {α β : Type} {f : α → Except PyError β} :
    ∀ {l : List α} {r : List β}, collect f l = .ok r →
      List.Forall₂ (fun a b => f a = .ok b) l r := by
  intro l
  induction l with
  | nil =>
    intro r h
    simp only [collect] at h
    cases h
    exact List.Forall₂.nil
  | cons a l ih =>
    intro r h
    simp only [collect] at h
    cases hfa : f a with
    | error e => rw [hfa, except_error_bind] at h; cases h
    | ok b =>
      rw [hfa, except_ok_bind] at h
      cases hcl : collect f l with
      | error e => rw [hcl, except_error_bind] at h; cases h
      | ok bs =>
        rw [hcl, except_ok_bind] at h
        cases h
        exact List.Forall₂.cons hfa (ih hcl)

theorem forall2_mem_right {α β : Type} {R : α → β → Prop} :
    ∀ {l : List α} {r : List β}, List.Forall₂ R l r → ∀ b ∈ r, ∃ a ∈ l, R a b := by
  intro l r h
  induction h with
  | nil => intro b hb; cases hb
  | cons hR _ ih =>
    intro b hb
    rcases List.mem_cons.mp hb with h1 | h1
    · exact ⟨_, by simp, h1 ▸ hR⟩
    · rcases ih b h1 with ⟨a, ha, hab⟩
      exact ⟨a, by simp [ha], hab⟩

theorem forall2_mem_left {α β : Type} {R : α → β → Prop} :
    ∀ {l : List α} {r : List β}, List.Forall₂ R l r → ∀ a ∈ l, ∃ b ∈ r, R a b := by
  intro l r h
  induction h with
  | nil => intro a ha; cases ha
  | cons hR _ ih =>
    intro a ha
    rcases List.mem_cons.mp ha with h1 | h1
    · exact ⟨_, by simp, h1 ▸ hR⟩
    · rcases ih a h1 with ⟨b, hb, hab⟩
      exact ⟨b, by simp [hb], hab⟩

theorem all_subsets_succ (k : ℕ) : ∃ rest, all_subsets (k + 1) = [0] :: rest := by
  unfold all_subsets
  rw [show List.range (k + 1) = 0 :: List.map Nat.succ (List.range k) from
    List.range_succ_eq_map k]
  simp only [List.map_cons, List.flatten_cons]
  exact ⟨_, rfl⟩

theorem map_fst_filter {α β : Type} (p : α → Bool) :
    ∀ l : List (α × β), (l.filter (fun x => p x.1)).map Prod.fst = (l.map Prod.fst).filter p := by
  intro l
  induction l with
  | nil => rfl
  | cons a l ih =>
    simp only [List.filter_cons, List.map_cons]
    cases hpa : p a.1 <;> simp [hpa, ih]

/-- Claim C2: for every hand and excluded set, `calculate_scores` has as
keys exactly the categories not excluded (in particular one entry per such
category and none for an excluded one), and with nothing excluded it has
exactly 13 entries. -/
theorem c2_calculate_scores_entries (d : Hand) (played : List String) :
    ((calculate_scores d played).map Prod.fst =
      CATEGORY_NAMES.filter (fun c => decide (c ∉ played))) ∧
    ((calculate_scores d played).map Prod.fst).Nodup ∧
    (calculate_scores d []).length = 13 := by
  have hkeys : ∀ pl : List String, (calculate_scores d pl).map Prod.fst =
      CATEGORY_NAMES.filter (fun c => decide (c ∉ pl)) := by
    intro pl
    unfold calculate_scores CATEGORY_NAMES
    rw [List.map_map]
    have h1 : (CATEGORIES.filter (fun p => decide (p.1 ∉ pl))).map
        (Prod.fst ∘ fun p : String × (Hand → ℕ) => (p.1, p.2 d))
        = (CATEGORIES.filter (fun p => decide (p.1 ∉ pl))).map Prod.fst := rfl
    rw [h1, map_fst_filter (fun c : String => decide (c ∉ pl)) CATEGORIES]
  refine ⟨hkeys played, ?_, ?_⟩
  · rw [hkeys played]
    exact List.Nodup.filter _ (by decide)
  · have h2 := hkeys []
    have h3 : (calculate_scores d []).length = ((calculate_scores d []).map Prod.fst).length :=
      (List.length_map _ _).symm
    rw [h3, h2]
    decide

theorem sorted_pair_iff (l : List ℕ) :
    l.insertionSort (· ≤ ·) = [2, 3] ↔ (↑l : Multiset ℕ) = ({2, 3} : Multiset ℕ) := by
  have h23 : ({2, 3} : Multiset ℕ) = (↑([2, 3] : List ℕ) : Multiset ℕ) := rfl
  rw [h23, Multiset.coe_eq_coe]
  constructor
  · intro he
    have hp := (List.perm_insertionSort (· ≤ ·) l).symm
    rw [he] at hp
    exact hp
  · intro hp
    exact List.eq_of_perm_of_sorted ((List.perm_insertionSort (· ≤ ·) l).trans hp)
      (List.sorted_insertionSort (· ≤ ·) l) (by decide)

/-- Claim C3: `full_house` scores 25 exactly when the multiset of face-count
multiplicities is `{2, 3}` and scores 0 otherwise; a five-of-a-kind hand
(multiplicities `{5}`) scores 0 for `full_house` and 50 for `yahtzee`. -/
theorem c3_full_house (d : Hand) (_hv : validHand d) :
    (score_full_house d = 25 ↔ (↑(counter_values d) : Multiset ℕ) = ({2, 3} : Multiset ℕ)) ∧
    ((↑(counter_values d) : Multiset ℕ) ≠ ({2, 3} : Multiset ℕ) → score_full_house d = 0) ∧
    ((↑(counter_values d) : Multiset ℕ) = ({5} : Multiset ℕ) →
      score_full_house d = 0 ∧ score_yahtzee d = 50) := by
  have hiff : score_full_house d = 25 ↔
      (↑(counter_values d) : Multiset ℕ) = ({2, 3} : Multiset ℕ) := by
    rw [← sorted_pair_iff]
    unfold score_full_house
    split
    · simp [*]
    · simp [*]
  refine ⟨hiff, ?_, ?_⟩
  · intro hne
    unfold score_full_house
    rw [if_neg (fun hc => hne ((sorted_pair_iff _).mp hc))]
  · intro h5
    have h5' : counter_values d = [5] := by
      have : (↑(counter_values d) : Multiset ℕ) = (↑([5] : List ℕ) : Multiset ℕ) := h5
      exact List.perm_singleton.mp (Multiset.coe_eq_coe.mp this)
    constructor
    · unfold score_full_house
      rw [h5']
      decide
    · unfold score_yahtzee
      have hlen : d.dedup.length = 1 := by
        have : (counter_values d).length = d.dedup.length := by
          unfold counter_values; exact List.length_map _ _
        rw [h5'] at this
        exact this.symm
      rw [hlen]
      simp

/-- Witness for C3 at the five-of-a-kind hand `[1,1,1,1,1]`. -/
theorem c3_full_house_witness :
    score_full_house [1, 1, 1, 1, 1] = 0 ∧ score_yahtzee [1, 1, 1, 1, 1] = 50 :=
  (c3_full_house [1, 1, 1, 1, 1] (by decide)).2.2 (by decide)

theorem assoc_value_unique :
    ∀ (t : Table) (k : List ℕ) (c₁ c₂ : ℕ), (t.map Prod.fst).Nodup →
      (k, c₁) ∈ t → (k, c₂) ∈ t → c₁ = c₂ := by
  intro t
  induction t with
  | nil => intro k c₁ c₂ _ h1; cases h1
  | cons p l ih =>
    intro k c₁ c₂ hnd h1 h2
    have hkey : p.1 ∉ l.map Prod.fst := (List.nodup_cons.mp hnd).1
    have hnd' : (l.map Prod.fst).Nodup := (List.nodup_cons.mp hnd).2
    rcases List.mem_cons.mp h1 with e1 | m1 <;> rcases List.mem_cons.mp h2 with e2 | m2
    · rw [← e1] at e2; exact (Prod.mk.injEq _ _ _ _).mp e2.symm |>.2
    · exfalso
      apply hkey
      rw [← e1]
      exact List.mem_map.mpr ⟨(k, c₂), m2, rfl⟩
    · exfalso
      apply hkey
      rw [← e2]
      exact List.mem_map.mpr ⟨(k, c₁), m1, rfl⟩
    · exact ih k c₁ c₂ hnd' m1 m2

theorem sortHand_perm_eq {h₁ h₂ : Hand} (hp : List.Perm h₁ h₂) :
    sortHand h₁ = sortHand h₂ :=
  List.eq_of_perm_of_sorted
    ((List.perm_insertionSort (· ≤ ·) h₁).trans
      (hp.trans (List.perm_insertionSort (· ≤ ·) h₂).symm))
    (List.sorted_insertionSort (· ≤ ·) h₁) (List.sorted_insertionSort (· ≤ ·) h₂)

/-- Claim C6: `weightOf` returns the count stored under the canonical
(sorted) form of the hand when present, 1 when absent, and gives equal
weights to hands that are permutations of each other. -/
theorem c6_weightOf (t : Table) (h₁ h₂ : Hand) (_hv : validHand h₁)
    (hp : List.Perm h₁ h₂) (hk : (t.map Prod.fst).Nodup) :
    (∀ c, (sortHand h₁, c) ∈ t → weightOf t h₁ = c) ∧
    ((∀ c, (sortHand h₁, c) ∉ t) → weightOf t h₁ = 1) ∧
    weightOf t h₁ = weightOf t h₂ := by
  refine ⟨?_, ?_, ?_⟩
  · intro c hc
    have hs : (t.find? (fun e => decide (e.1 = sortHand h₁))).isSome := by
      rw [List.find?_isSome]
      exact ⟨(sortHand h₁, c), hc, by simp⟩
    obtain ⟨e, he⟩ := Option.isSome_iff_exists.mp hs
    have hpe : e.1 = sortHand h₁ := by
      have := List.find?_some he
      simpa using this
    have hme : (sortHand h₁, e.2) ∈ t := by
      have hm := List.mem_of_find?_eq_some he
      rw [← hpe]
      exact hm
    unfold weightOf
    rw [he]
    exact assoc_value_unique t (sortHand h₁) e.2 c hk hme hc
  · intro hno
    have hn : t.find? (fun e => decide (e.1 = sortHand h₁)) = none := by
      rw [List.find?_eq_none]
      intro e he hpe
      apply hno e.2
      have : e.1 = sortHand h₁ := by simpa using hpe
      rw [← this]
      exact he
    unfold weightOf
    rw [hn]
  · unfold weightOf
    rw [sortHand_perm_eq hp]

/-- Witness for C6: a stored canonical hand looked up by a scrambled
permutation of it. -/
theorem c6_weightOf_witness :
    weightOf [([1, 2, 3, 4, 5], 7)] [5, 4, 3, 2, 1] = 7 ∧
    weightOf [([1, 2, 3, 4, 5], 7)] [5, 4, 3, 2, 1] =
      weightOf [([1, 2, 3, 4, 5], 7)] [1, 2, 3, 4, 5] := by
  have H := c6_weightOf [([1, 2, 3, 4, 5], 7)] [5, 4, 3, 2, 1] [1, 2, 3, 4, 5]
    (by decide) (by decide) (by decide)
  exact ⟨H.1 7 (by decide), H.2.2⟩

theorem counterAdd_keys_nodup {κ : Type} [DecidableEq κ] {c : List (κ × ℕ)} (k : κ) (v : ℕ)
    (h : (c.map Prod.fst).Nodup) : ((counterAdd c k v).map Prod.fst).Nodup := by
  unfold counterAdd
  split
  · have hmap : (c.map (fun p => if p.1 = k then (p.1, p.2 + v) else p)).map Prod.fst
        = c.map Prod.fst := by
      rw [List.map_map]
      apply List.map_congr_left
      intro p _
      by_cases hpk : p.1 = k <;> simp [hpk, Function.comp]
    rw [hmap]
    exact h
  · rename_i hany
    have hknot : k ∉ c.map Prod.fst := by
      intro hkin
      rcases List.mem_map.mp hkin with ⟨p, hpmem, hpk⟩
      exact hany (List.any_eq_true.mpr ⟨p, hpmem, by simp [hpk]⟩)
    rw [List.map_append]
    have hperm : List.Perm (c.map Prod.fst ++ [(k, v)].map Prod.fst)
        (k :: c.map Prod.fst) := by
      exact List.perm_append_singleton k (c.map Prod.fst)
    rw [hperm.nodup_iff]
    exact List.nodup_cons.mpr ⟨hknot, h⟩

theorem record_keys_nodup (hands : List Hand) :
    (((hands.foldl record_observation []).map Prod.fst)).Nodup := by
  suffices H : ∀ t : Table, (t.map Prod.fst).Nodup →
      (((hands.foldl record_observation t)).map Prod.fst).Nodup by
    exact H [] (by simp)
  induction hands with
  | nil => intro t ht; exact ht
  | cons d hs ih =>
    intro t ht
    exact ih (record_observation t d) (counterAdd_keys_nodup _ _ ht)

theorem load_foldl_append :
    ∀ (l : List (List ℕ × ℕ)) (acc : Table), (((acc ++ l).map Prod.fst)).Nodup →
      l.foldl (fun c e => counterSet c e.1 e.2) acc = acc ++ l := by
  intro l
  induction l with
  | nil => intro acc _; simp
  | cons e l ih =>
    intro acc hnd
    have hknot : e.1 ∉ acc.map Prod.fst := by
      intro hkin
      have h1 : ((acc ++ e :: l).map Prod.fst).Nodup := hnd
      rw [List.map_append] at h1
      have h2 := (List.nodup_append.mp h1).2.2
      exact h2 hkin (by simp)
    have hset : counterSet acc e.1 e.2 = acc ++ [e] := by
      unfold counterSet
      have hany : ¬ (acc.any (fun p => decide (p.1 = e.1)) = true) := by
        rw [List.any_eq_true]
        rintro ⟨p, hpmem, hpk⟩
        exact hknot (List.mem_map.mpr ⟨p, hpmem, by simpa using hpk⟩)
      rw [if_neg hany]
    simp only [List.foldl_cons, hset]
    have happ : acc ++ e :: l = (acc ++ [e]) ++ l := by simp
    rw [ih (acc ++ [e]) (by rw [← happ]; exact hnd)]
    simp

/-- Claim C7: persisting a frequency table built by a sequence of
`record_observation` calls and loading it back reproduces the table exactly
(same canonical keys, same counts). -/
theorem c7_roundtrip (hands : List Hand) (db : List (List ℕ × ℕ)) :
    load_roll_data (save_roll_data db (hands.foldl record_observation [])) =
      hands.foldl record_observation [] := by
  unfold save_roll_data load_roll_data
  have h := load_foldl_append (hands.foldl record_observation []) []
    (by simpa using record_keys_nodup hands)
  simpa using h

theorem calculate_scores_nil {played : List String}
    (h : ∀ c ∈ CATEGORY_NAMES, c ∈ played) :
    ∀ d : Hand, calculate_scores d played = [] := by
  intro d
  unfold calculate_scores
  have hf : CATEGORIES.filter (fun p => decide (p.1 ∉ played)) = [] := by
    rw [List.filter_eq_nil_iff]
    intro p hp
    simp only [decide_eq_true_eq, Decidable.not_not]
    exact h p.1 (List.mem_map.mpr ⟨p, hp, rfl⟩)
  rw [hf]
  rfl

/-- Claim C4: with every category excluded, `recommend` fails with the
`noCategoryLeft` error (the `max()`-on-empty failure), whatever the hand,
table and remaining rerolls. -/
theorem c4_no_category_left (d : Hand) (t : Table) (played : List String) (k : ℕ)
    (h : ∀ c ∈ CATEGORY_NAMES, c ∈ played) :
    recommend d t played k = .error .noCategoryLeft := by
  have hcs := calculate_scores_nil h
  have hrr : recommend_rerolls d t played k = .error .noCategoryLeft := by
    cases k with
    | zero =>
      unfold recommend_rerolls
      have h0 : all_subsets 0 = [] := rfl
      rw [h0]
      simp only [collect, except_ok_bind]
      rw [hcs d]
      rfl
    | succ k =>
      obtain ⟨rest, hr⟩ := all_subsets_succ k
      unfold recommend_rerolls
      rw [hr]
      have hadj : adjusted_score t (most_common_numbers t) played
          (apply_reroll d [0] [1]) = .error .noCategoryLeft := by
        unfold adjusted_score
        rw [hcs]
        rfl
      have hsev : subset_expected_value d t (most_common_numbers t) played [0]
          = .error .noCategoryLeft := by
        unfold subset_expected_value
        have hrv : reroll_values ([0] : List ℕ).length = [[1], [2], [3], [4], [5], [6]] := rfl
        rw [hrv]
        simp only [collect, hadj, except_error_bind]
      simp only [collect, hsev, except_error_bind]
  unfold recommend
  rw [hrr]
  rfl

/-- Witness for C4: every category already played. -/
theorem c4_no_category_left_witness :
    recommend [1, 1, 1, 1, 1] [] CATEGORY_NAMES 1 = .error .noCategoryLeft :=
  c4_no_category_left [1, 1, 1, 1, 1] [] CATEGORY_NAMES 1 (by decide)

/-- Claim C5: with zero rerolls remaining and some category still open,
`recommend` returns a Score recommendation carrying the best open category
and its current score — never a Reroll. -/
theorem c5_zero_rerolls (d : Hand) (t : Table) (played : List String)
    (h : ∃ c ∈ CATEGORY_NAMES, c ∉ played) :
    ∃ cat sc, recommend d t played 0 = .ok (.score cat sc) ∧
      (cat, sc) ∈ calculate_scores d played ∧
      ∀ p ∈ calculate_scores d played, p.2 ≤ sc := by
  obtain ⟨c, hcmem, hcnot⟩ := h
  have hne : calculate_scores d played ≠ [] := by
    obtain ⟨p, hp, hpc⟩ := List.mem_map.mp hcmem
    intro hnil
    have hmem : (p.1, p.2 d) ∈ calculate_scores d played := by
      unfold calculate_scores
      exact List.mem_map.mpr ⟨p, List.mem_filter.mpr ⟨hp, by simp [hpc ▸ hcnot]⟩, rfl⟩
    rw [hnil] at hmem
    exact absurd hmem (List.not_mem_nil _)
  obtain ⟨e, es, hcs⟩ := List.exists_cons_of_ne_nil hne
  have hrr : recommend_rerolls d t played 0 = .ok ([], ((max_by_snd e es).2 : ℚ)) := by
    unfold recommend_rerolls
    have h0 : all_subsets 0 = [] := rfl
    rw [h0]
    simp only [collect, except_ok_bind]
    rw [pymax_cast_eq hcs]
    rfl
  have hmb : max_by_value (calculate_scores d played) = .ok (max_by_snd e es) := by
    rw [hcs]
    rfl
  refine ⟨(max_by_snd e es).1, (max_by_snd e es).2, ?_, ?_, ?_⟩
  · unfold recommend
    rw [hrr, except_ok_bind, hmb, except_ok_bind]
    rw [if_pos (le_refl _)]
    rfl
  · rw [hcs]
    exact max_by_snd_mem e es
  · rw [hcs]
    exact max_by_snd_le e es

/-- Witness for C5: a straight hand, empty table, nothing excluded. -/
theorem c5_zero_rerolls_witness :
    ∃ cat sc, recommend [1, 2, 3, 4, 5] [] [] 0 = .ok (.score cat sc) ∧
      (cat, sc) ∈ calculate_scores [1, 2, 3, 4, 5] [] ∧
      ∀ p ∈ calculate_scores [1, 2, 3, 4, 5] [], p.2 ≤ sc :=
  c5_zero_rerolls [1, 2, 3, 4, 5] [] [] (by decide)

/-- Claim C8: the final decision scores whenever the best current score is
at least the reroll expected value — including exact ties — and returns a
Reroll only when the expected value is strictly greater. -/
theorem c8_tie_break (d : Hand) (t : Table) (played : List String) (k : ℕ)
    (rr : List ℕ × ℚ) (best : String × ℕ)
    (h1 : recommend_rerolls d t played k = .ok rr)
    (h2 : max_by_value (calculate_scores d played) = .ok best) :
    ((rr.2 ≤ (best.2 : ℚ)) → recommend d t played k = .ok (.score best.1 best.2)) ∧
    (((best.2 : ℚ) < rr.2) → recommend d t played k = .ok (.reroll rr.1 rr.2)) ∧
    (∀ ri ev, recommend d t played k = .ok (.reroll ri ev) → (best.2 : ℚ) < rr.2) := by
  have hrec : recommend d t played k =
      if (best.2 : ℚ) ≥ rr.2 then .ok (.score best.1 best.2) else .ok (.reroll rr.1 rr.2) := by
    unfold recommend
    rw [h1, except_ok_bind, h2, except_ok_bind]
    split
    · rfl
    · rfl
  refine ⟨?_, ?_, ?_⟩
  · intro hle
    rw [hrec, if_pos hle]
  · intro hlt
    rw [hrec, if_neg (not_le.mpr hlt)]
  · intro ri ev heq
    by_cases hge : (best.2 : ℚ) ≥ rr.2
    · rw [hrec, if_pos hge] at heq
      exact absurd (Except.ok.inj heq) (by simp)
    · exact not_le.mp hge

/-- Witness for C8 at an exact tie: with zero rerolls the expected value
equals the best current score, and the decision is to score. -/
theorem c8_tie_break_witness :
    recommend [1, 2, 3, 4, 5] [] [] 0 = .ok (.score "large_straight" 40) := by
  have H := c8_tie_break [1, 2, 3, 4, 5] [] [] 0 ([], ((40 : ℕ) : ℚ)) ("large_straight", 40)
    rfl rfl
  exact H.1 (le_refl _)

set_option maxHeartbeats 4000000

theorem filter_twelve_played :
    CATEGORIES.filter (fun p => !decide (p.1 ∈ twelve_played)) = [("ones", score_upper 1)] := by
  rfl

/-- Counterexample to C1: with the hand `[2,2,2,2,2]`, an empty table and
one reroll, excluding all categories but `ones` changes the advisor's
expected value from `109/6` to `1/6` — the simulation scoring is not
independent of the excluded set. -/
theorem c1_counterexample :
    recommend_rerolls [2, 2, 2, 2, 2] [] twelve_played 1 = .ok ([2], 1 / 6) ∧
    recommend_rerolls [2, 2, 2, 2, 2] [] [] 1 = .ok ([2], 109 / 6) ∧
    ((1 : ℚ) / 6 ≠ 109 / 6) := by
  refine ⟨?_, ?_, by norm_num⟩
  · norm_num [recommend_rerolls, max_by_snd, most_common_numbers, number_frequency,
      all_subsets, combinations, subset_expected_value, collect, reroll_values,
      adjusted_score, pymax, calculate_scores, filter_twelve_played, score_upper,
      weightOf, sortHand, apply_reroll, except_ok_bind, except_pure_eq_ok]
  · norm_num [recommend_rerolls, max_by_snd, most_common_numbers, number_frequency,
      all_subsets, combinations, subset_expected_value, collect, reroll_values,
      adjusted_score, pymax, calculate_scores, CATEGORIES, score_upper,
      score_n_of_a_kind, score_full_house, score_small_straight, score_large_straight,
      score_yahtzee, counter_values, weightOf, sortHand, apply_reroll, faceSetEq,
      except_ok_bind, except_pure_eq_ok]

/-- Amended C1: each simulated outcome's adjusted score is the maximum of
`calculate_scores(simulatedHand, excludedCategories)` — over the categories
NOT excluded, not the full 13 — multiplied by the stored weight of the
simulated hand and by the most-common-faces bonus factor; it therefore
depends on the excluded set in general. -/
theorem c1_amended_simulation_uses_exclusions (t : Table) (mc : List ℕ)
    (played : List String) (sim : Hand) (m : ℕ)
    (hmem : m ∈ (calculate_scores sim played).map Prod.snd)
    (hub : ∀ v ∈ (calculate_scores sim played).map Prod.snd, v ≤ m) :
    adjusted_score t mc played sim =
      .ok ((m : ℚ) * (weightOf t sim : ℚ) *
        (1 + (1 / 10 : ℚ) * (sim.countP (fun x => decide (x ∈ mc)) : ℚ))) := by
  cases hcs : calculate_scores sim played with
  | nil => rw [hcs] at hmem; cases hmem
  | cons e es =>
    have hpm := pymax_cast_eq hcs
    have hbest : (max_by_snd e es).2 = m := by
      apply le_antisymm
      · apply hub
        rw [hcs]
        simpa using List.mem_map_of_mem Prod.snd (max_by_snd_mem e es)
      · rw [hcs] at hmem
        rcases List.mem_map.mp hmem with ⟨p, hp, hpm2⟩
        rw [← hpm2]
        exact max_by_snd_le e es p hp
    unfold adjusted_score
    rw [hpm, except_ok_bind, hbest]
    rfl

/-- Witness for the amended C1: the only open category (`ones`) caps the
simulated hand `[2,2,2,2,2]` at its `ones` score 0. -/
theorem c1_amended_simulation_uses_exclusions_witness :
    adjusted_score [] [] twelve_played [2, 2, 2, 2, 2] =
      .ok (((0 : ℕ) : ℚ) * (weightOf [] [2, 2, 2, 2, 2] : ℚ) *
        (1 + (1 / 10 : ℚ) *
          (([2, 2, 2, 2, 2] : Hand).countP (fun x => decide (x ∈ ([] : List ℕ))) : ℚ))) :=
  c1_amended_simulation_uses_exclusions [] [] twelve_played [2, 2, 2, 2, 2] 0
    (by decide) (by decide)

/-- Counterexample to C9: on `[1,1,1,1,6]` with an empty table the advisor
recommends a reroll whose first component is `[6]` — the die value at the
chosen position 4 — which is not a subset of the die positions 0..4, so the
first component does not identify which positions to reroll. -/
theorem c9_counterexample :
    recommend [1, 1, 1, 1, 6] [] [] 1 = .ok (.reroll [6] 15) ∧
    ¬ (∀ i ∈ ([6] : List ℕ), i < 5) := by
  refine ⟨?_, by decide⟩
  norm_num [recommend, recommend_rerolls, max_by_value, max_by_snd,
    most_common_numbers, number_frequency, all_subsets, combinations,
    subset_expected_value, collect, reroll_values, adjusted_score, pymax,
    calculate_scores, CATEGORIES, score_upper, score_n_of_a_kind,
    score_full_house, score_small_straight, score_large_straight, score_yahtzee,
    counter_values, weightOf, sortHand, apply_reroll, faceSetEq,
    except_ok_bind, except_pure_eq_ok]

/-- Amended C9: when `recommend_rerolls` succeeds with at least one reroll
remaining, the first component of its result is the list of die VALUES at
the chosen best subset's positions (`[dice[i] for i in bestSubset]`),
paired with that subset's expected value, which is maximal among the
expected values of all examined subsets; the positions themselves are not
returned. -/
theorem c9_amended_reroll_values (d : Hand) (t : Table) (played : List String)
    (k : ℕ) (vs : List ℕ) (ev : ℚ) (hk : 0 < k)
    (h : recommend_rerolls d t played k = .ok (vs, ev)) :
    ∃ s ∈ all_subsets k, vs = s.map (fun i => d.getD i 0) ∧
      subset_expected_value d t (most_common_numbers t) played s = .ok ev ∧
      ∀ s2 ∈ all_subsets k, ∀ v,
        subset_expected_value d t (most_common_numbers t) played s2 = .ok v → v ≤ ev := by
  unfold recommend_rerolls at h
  dsimp only at h
  cases hc : collect (fun s => do
      let ev ← subset_expected_value d t (most_common_numbers t) played s
      pure (s, ev)) (all_subsets k) with
  | error e =>
    rw [hc, except_error_bind] at h
    cases h
  | ok evs =>
    rw [hc, except_ok_bind] at h
    have hf2 := collect_forall2 hc
    cases evs with
    | nil =>
      obtain ⟨k2, rfl⟩ : ∃ k2, k = k2 + 1 := ⟨k - 1, by omega⟩
      obtain ⟨rest, hr⟩ := all_subsets_succ k2
      rw [hr] at hf2
      cases hf2
    | cons e es =>
      obtain ⟨s, hs, hR⟩ := forall2_mem_right hf2 (max_by_snd e es) (max_by_snd_mem e es)
      cases hsev : subset_expected_value d t (most_common_numbers t) played s with
      | error e2 => rw [hsev, except_error_bind] at hR; cases hR
      | ok v =>
        rw [hsev, except_ok_bind] at hR
        have hbest : max_by_snd e es = (s, v) := (Except.ok.inj hR).symm
        have hpair := Except.ok.inj h
        refine ⟨s, hs, ?_, ?_, ?_⟩
        · rw [← (Prod.mk.injEq _ _ _ _).mp hpair |>.1, hbest]
        · rw [hsev, ← (Prod.mk.injEq _ _ _ _).mp hpair |>.2, hbest]
        · intro s2 hs2 v2 hsev2
          obtain ⟨b, hb, hRb⟩ := forall2_mem_left hf2 s2 hs2
          rw [hsev2, except_ok_bind] at hRb
          have hb2 : b = (s2, v2) := (Except.ok.inj hRb).symm
          have hle := max_by_snd_le e es b hb
          rw [← (Prod.mk.injEq _ _ _ _).mp hpair |>.2]
          rw [hb2] at hle
          exact hle

/-- Witness for the amended C9: the best subset for `[1,1,1,1,6]` is
position 4, the returned values are the dice at that position, and its
expected value 15 bounds every examined subset's expected value. -/
theorem c9_amended_reroll_values_witness :
    ∃ s ∈ all_subsets 1, [6] = s.map (fun i => ([1, 1, 1, 1, 6] : Hand).getD i 0) ∧
      subset_expected_value [1, 1, 1, 1, 6] [] (most_common_numbers []) [] s = .ok 15 ∧
      ∀ s2 ∈ all_subsets 1, ∀ v,
        subset_expected_value [1, 1, 1, 1, 6] [] (most_common_numbers []) [] s2 = .ok v →
          v ≤ 15 :=
  c9_amended_reroll_values [1, 1, 1, 1, 6] [] [] 1 [6] 15 (by decide)
    (by norm_num [recommend_rerolls, max_by_snd, most_common_numbers, number_frequency,
      all_subsets, combinations, subset_expected_value, collect, reroll_values,
      adjusted_score, pymax, calculate_scores, CATEGORIES, score_upper,
      score_n_of_a_kind, score_full_house, score_small_straight, score_large_straight,
      score_yahtzee, counter_values, weightOf, sortHand, apply_reroll, faceSetEq,
      except_ok_bind, except_pure_eq_ok])

theorem stFold_run {σ α β : Type} {f : β → α → σ → β × σ}
    (hf : ∀ b a s, (f b a s).2 = s) (s : σ) :
    ∀ (l : List α) (b : β), stFold f l b s = (l.foldl (fun b a => (f b a s).1) b, s) := by
  intro l
  induction l with
  | nil => intro b; rfl
  | cons a l ih =>
    intro b
    simp only [stFold, List.foldl_cons]
    rw [hf b a s]
    exact ih (f b a s).1

theorem stCollect_run {σ α β : Type} {f : α → σ → Except PyError β × σ}
    (hf : ∀ a s, (f a s).2 = s) (s : σ) :
    ∀ l : List α, stCollect f l s = (collect (fun a => (f a s).1) l, s) := by
  intro l
  induction l with
  | nil => rfl
  | cons a l ih =>
    have h1 : f a s = ((f a s).1, s) := by
      conv_lhs => rw [← @Prod.mk.eta _ _ (f a s)]
      rw [hf]
    cases hr : (f a s).1 with
    | error e =>
      have h3 : f a s = (.error e, s) := by rw [h1, hr]
      simp only [stCollect, collect, h3, hr, except_error_bind]
    | ok b =>
      have h3 : f a s = (.ok b, s) := by rw [h1, hr]
      simp only [stCollect, collect, h3, ih]
      cases hcl : collect (fun a => (f a s).1) l with
      | error e => simp [hr, hcl, except_ok_bind, except_error_bind]
      | ok bs => simp [hr, hcl, except_ok_bind, except_pure_eq_ok]

theorem foldl_skip_append {α γ : Type} (q : α → Bool) (g : α → γ) :
    ∀ (l : List α) (acc : List γ),
      l.foldl (fun b a => if q a then b else b ++ [g a]) acc
        = acc ++ (l.filter (fun a => !q a)).map g := by
  intro l
  induction l with
  | nil => intro acc; simp
  | cons a l ih =>
    intro acc
    simp only [List.foldl_cons, List.filter_cons]
    cases hqa : q a <;> simp [hqa, ih]

theorem foldl_append_map {α γ : Type} (g : α → γ) :
    ∀ (l : List α) (acc : List γ),
      l.foldl (fun b a => b ++ [g a]) acc = acc ++ l.map g := by
  intro l
  induction l with
  | nil => intro acc; simp
  | cons a l ih =>
    intro acc
    simp only [List.foldl_cons, List.map_cons]
    rw [ih]
    simp

theorem calculate_scores_st_run (d : Hand) (s : PyState) :
    calculate_scores_st d s = (calculate_scores d s.played, s) := by
  unfold calculate_scores_st st_played_has
  rw [stFold_run (fun b a st => rfl) s]
  dsimp only
  rw [foldl_skip_append (fun p : String × (Hand → ℕ) => decide (p.1 ∈ s.played))
    (fun p : String × (Hand → ℕ) => (p.1, p.2 d)) CATEGORIES []]
  have hfc : CATEGORIES.filter (fun p => decide (p.1 ∉ s.played))
      = CATEGORIES.filter (fun p => !decide (p.1 ∈ s.played)) := by
    apply List.filter_congr
    intro p _
    rw [decide_not]
  unfold calculate_scores
  rw [hfc]
  simp

theorem weightOf_getD (t : Table) (d : Hand) :
    weightOf t d = ((t.find? (fun e => decide (e.1 = sortHand d))).map Prod.snd).getD 1 := by
  unfold weightOf
  cases h : t.find? (fun e => decide (e.1 = sortHand d)) <;> simp [h]

theorem adjusted_score_st_run (mc : List ℕ) (idxs vals : List ℕ) (s : PyState) :
    adjusted_score_st mc idxs vals s =
      (adjusted_score s.roll_data mc s.played (apply_reroll s.dice idxs vals), s) := by
  unfold adjusted_score_st st_copy_dice st_table_get adjusted_score
  dsimp only
  rw [calculate_scores_st_run]
  cases hpm : pymax ((calculate_scores (apply_reroll s.dice idxs vals) s.played).map
      (fun p => (p.2 : ℚ))) with
  | error e => rfl
  | ok m =>
    rw [weightOf_getD]
    rfl

theorem subset_ev_st_run (mc idxs : List ℕ) (s : PyState) :
    subset_ev_st mc idxs s =
      (subset_expected_value s.dice s.roll_data mc s.played idxs, s) := by
  unfold subset_ev_st subset_expected_value
  rw [stCollect_run (fun a st => by rw [adjusted_score_st_run]) s]
  have hfun : (fun vals => (adjusted_score_st mc idxs vals s).1)
      = fun vals => adjusted_score s.roll_data mc s.played (apply_reroll s.dice idxs vals) := by
    funext vals
    rw [adjusted_score_st_run]
  rw [hfun]
  cases hcol : collect (fun vals =>
      adjusted_score s.roll_data mc s.played (apply_reroll s.dice idxs vals))
      (reroll_values idxs.length) with
  | error e => rfl
  | ok scores => rfl

theorem recommend_rerolls_st_run (k : ℕ) (s : PyState) :
    recommend_rerolls_st k s = (recommend_rerolls s.dice s.roll_data s.played k, s) := by
  unfold recommend_rerolls_st st_roll_items
  dsimp only
  have hf : ∀ (sub : List ℕ) (st : PyState),
      ((match subset_ev_st (most_common_numbers s.roll_data) sub st with
        | (.error e, st2) => ((.error e : Except PyError (List ℕ × ℚ)), st2)
        | (.ok ev, st2) => (.ok (sub, ev), st2)) : Except PyError (List ℕ × ℚ) × PyState).2
        = st := by
    intro sub st
    rcases hse : subset_ev_st (most_common_numbers s.roll_data) sub st with ⟨r, st2⟩
    have hst2 : st2 = st := by
      have h2 := subset_ev_st_run (most_common_numbers s.roll_data) sub st
      rw [hse] at h2
      exact ((Prod.mk.injEq _ _ _ _).mp h2).2
    cases r <;> simp [hst2]
  rw [stCollect_run hf s]
  have hfun : (fun sub => ((match subset_ev_st (most_common_numbers s.roll_data) sub s with
        | (.error e, st2) => ((.error e : Except PyError (List ℕ × ℚ)), st2)
        | (.ok ev, st2) => (.ok (sub, ev), st2)) : Except PyError (List ℕ × ℚ) × PyState).1)
      = fun sub => (do
          let ev ← subset_expected_value s.dice s.roll_data
            (most_common_numbers s.roll_data) s.played sub
          pure (sub, ev) : Except PyError (List ℕ × ℚ)) := by
    funext sub
    rw [subset_ev_st_run]
    cases hse : subset_expected_value s.dice s.roll_data
        (most_common_numbers s.roll_data) s.played sub with
    | error e => rfl
    | ok ev => rfl
  rw [hfun]
  unfold recommend_rerolls
  dsimp only
  cases hc : collect (fun sub => (do
      let ev ← subset_expected_value s.dice s.roll_data
        (most_common_numbers s.roll_data) s.played sub
      pure (sub, ev) : Except PyError (List ℕ × ℚ))) (all_subsets k) with
  | error e => rfl
  | ok evs =>
    cases evs with
    | nil =>
      dsimp only [st_copy_dice]
      rw [calculate_scores_st_run]
      cases hpm : pymax ((calculate_scores s.dice s.played).map (fun p => (p.2 : ℚ))) with
      | error e => rfl
      | ok m => rfl
    | cons e es =>
      dsimp only [st_die_at]
      rw [stFold_run (fun b a st => rfl) s]
      dsimp only
      rw [foldl_append_map (fun i => s.dice.getD i 0) (max_by_snd e es).1 []]
      rfl

/-- Claim C10: `recommend_rerolls` leaves its three inputs — the dice list,
the frequency table and the played-category set — exactly as they were: in
the state-passing rendering the final state equals the initial one, and the
result is the pure function of the initial contents. -/
theorem c10_frame (s : PyState) (k : ℕ) :
    (recommend_rerolls_st k s).2 = s ∧
    (recommend_rerolls_st k s).1 = recommend_rerolls s.dice s.roll_data s.played k := by
  rw [recommend_rerolls_st_run]
  exact ⟨rfl, rfl⟩
